import Mathlib

/-!
Verification of the redline edit-history and undo/redo engine.

The History Store definitions (`EditMeta`, `EditEvent`, `appendEvent`,
`getEvents`, `buildIneffectiveSeqs`, `findLastEffective`, `findLastUndone`,
`canUndo`, `canRedo`, `hashContent`) are a shallow embedding of
`src/agent/history.ts`.  The edit/undo/redo protocol handlers live in
`src/server/api.ts`, which is not part of the sources available here; those
definitions are modelled from the specification (each is marked
`Modelled from the spec:`).
-/

namespace Redline

/-- Embeds the TypeScript interface `EditMeta` (`src/agent/history.ts`).
The optional numeric fields `_undoTarget`/`_redoTarget` become `Option Nat`;
the optional boolean flags `_undo`/`_redo` become `Bool` defaulting to
`false` (absent and `false` are indistinguishable to every consumer, which
only ever tests truthiness). -/
structure EditMeta where
  _undo : Bool := false
  _undoTarget : Option Nat := none
  _redo : Bool := false
  _redoTarget : Option Nat := none
  instruction : Option String := none
  mode : Option String := none
deriving Repr, DecidableEq

/-- Embeds the TypeScript interface `EditEvent` (`src/agent/history.ts`). -/
structure EditEvent where
  seq : Nat
  filePath : String
  startLine : Nat
  endLine : Nat
  original : String
  modified : String
  originalLineCount : Nat
  modifiedLineCount : Nat
  hashBefore : String
  hashAfter : String
  timestamp : Nat
  meta : Option EditMeta := none
deriving Repr, DecidableEq

/-- The payload of `appendEvent`: `Omit<EditEvent, 'seq' | 'timestamp'>`. -/
structure EventPayload where
  filePath : String
  startLine : Nat
  endLine : Nat
  original : String
  modified : String
  originalLineCount : Nat
  modifiedLineCount : Nat
  hashBefore : String
  hashAfter : String
  meta : Option EditMeta := none
deriving Repr, DecidableEq

/-- The in-memory module state of `src/agent/history.ts`: the
`Map<string, EditEvent[]>` keyed by file path (a total function returning
`[]` for absent keys, matching `store.get(filePath) ?? []`) and the global
sequence counter `globalSeq`. -/
structure Store where
  logs : String → List EditEvent
  globalSeq : Nat

/-- The state produced by module initialisation or `_resetStore()`. -/
def initialStore : Store :=
  { logs := fun _ => [], globalSeq := 0 }

/-- Embeds `appendEvent` (`src/agent/history.ts`).  `Date.now()` is passed
in as the explicit parameter `now`.  Returns the updated store together with
the stored event, mirroring the TypeScript return value. -/
def appendEvent (st : Store) (filePath : String) (event : EventPayload)
    (now : Nat) : Store × EditEvent :=
  let full : EditEvent :=
    { seq := st.globalSeq + 1
      filePath := event.filePath
      startLine := event.startLine
      endLine := event.endLine
      original := event.original
      modified := event.modified
      originalLineCount := event.originalLineCount
      modifiedLineCount := event.modifiedLineCount
      hashBefore := event.hashBefore
      hashAfter := event.hashAfter
      timestamp := now
      meta := event.meta }
  let events := st.logs filePath ++ [full]
  ({ logs := fun p => if p = filePath then events else st.logs p
     globalSeq := st.globalSeq + 1 }, full)

/-- Embeds `getEvents` (`src/agent/history.ts`). -/
def getEvents (st : Store) (filePath : String) : List EditEvent :=
  st.logs filePath

/-- The seqs one event marks ineffective: the body of the loop of
`buildIneffectiveSeqs` for a single event `e`
(`if (e.meta?._undo && e.meta._undoTarget != null) ...` and the
corresponding redo test). -/
def refsOf (e : EditEvent) : Finset Nat :=
  let fromUndo : Finset Nat :=
    match e.meta with
    | some m => if m._undo then (match m._undoTarget with
        | some t => {t}
        | none => ∅) else ∅
    | none => ∅
  let fromRedo : Finset Nat :=
    match e.meta with
    | some m => if m._redo then (match m._redoTarget with
        | some t => {t}
        | none => ∅) else ∅
    | none => ∅
  fromUndo ∪ fromRedo

/-- Embeds `buildIneffectiveSeqs` (`src/agent/history.ts`): a fold over the
log collecting every `_undoTarget`/`_redoTarget` referenced by an event
whose corresponding flag is set. -/
def buildIneffectiveSeqs (events : List EditEvent) : Finset Nat :=
  events.foldl (fun ineffective e => ineffective ∪ refsOf e) ∅

/-- `!!e.meta?._undo` in TypeScript: whether the event is an undo event. -/
def isUndoEvent (e : EditEvent) : Bool :=
  match e.meta with
  | some m => m._undo
  | none => false

/-- Embeds `findLastEffective` (`src/agent/history.ts`): backward scan for
the first event that is not ineffective and is not an undo event. -/
def findLastEffective (events : List EditEvent) (ineffective : Finset Nat) :
    Option EditEvent :=
  events.reverse.find? (fun e => !(decide (e.seq ∈ ineffective)) && !(isUndoEvent e))

/-- Embeds `findLastUndone` (`src/agent/history.ts`): backward scan for the
first event that is not ineffective and is an undo event. -/
def findLastUndone (events : List EditEvent) (ineffective : Finset Nat) :
    Option EditEvent :=
  events.reverse.find? (fun e => !(decide (e.seq ∈ ineffective)) && isUndoEvent e)

/-- Embeds `canUndo` (`src/agent/history.ts`). -/
def canUndo (st : Store) (filePath : String) : Bool :=
  let events := getEvents st filePath
  let ineffective := buildIneffectiveSeqs events
  (findLastEffective events ineffective).isSome

/-- Embeds `canRedo` (`src/agent/history.ts`). -/
def canRedo (st : Store) (filePath : String) : Bool :=
  let events := getEvents st filePath
  let ineffective := buildIneffectiveSeqs events
  (findLastUndone events ineffective).isSome

/-! `hashContent` calls `createHash('sha256')` from `node:crypto`; the SHA-256
algorithm (FIPS 180-4) is embedded below over `Nat` with explicit `% 2 ^ 32`
reductions, operating on the UTF-8 bytes of the input string. -/

/-- 32-bit right rotation of `x` by `n` (for `0 < n < 32`). -/
def rotr32 (n x : Nat) : Nat :=
  (x / 2 ^ n + x % 2 ^ n * 2 ^ (32 - n)) % 2 ^ 32

/-- 32-bit bitwise complement. -/
def not32 (x : Nat) : Nat :=
  Nat.xor x (2 ^ 32 - 1)

/-- SHA-256 `Ch(e, f, g)`. -/
def sha256Ch (e f g : Nat) : Nat :=
  Nat.xor (Nat.land e f) (Nat.land (not32 e) g)

/-- SHA-256 `Maj(a, b, c)`. -/
def sha256Maj (a b c : Nat) : Nat :=
  Nat.xor (Nat.xor (Nat.land a b) (Nat.land a c)) (Nat.land b c)

/-- SHA-256 `Σ₀`. -/
def bigSigma0 (x : Nat) : Nat :=
  Nat.xor (Nat.xor (rotr32 2 x) (rotr32 13 x)) (rotr32 22 x)

/-- SHA-256 `Σ₁`. -/
def bigSigma1 (x : Nat) : Nat :=
  Nat.xor (Nat.xor (rotr32 6 x) (rotr32 11 x)) (rotr32 25 x)

/-- SHA-256 `σ₀`. -/
def smallSigma0 (x : Nat) : Nat :=
  Nat.xor (Nat.xor (rotr32 7 x) (rotr32 18 x)) (x / 2 ^ 3)

/-- SHA-256 `σ₁`. -/
def smallSigma1 (x : Nat) : Nat :=
  Nat.xor (Nat.xor (rotr32 17 x) (rotr32 19 x)) (x / 2 ^ 10)

/-- The 64 SHA-256 round constants `K` (FIPS 180-4, written in decimal). -/
def sha256K : List Nat :=
  [1116352408, 1899447441, 3049323471, 3921009573,
   961987163, 1508970993, 2453635748, 2870763221,
   3624381080, 310598401, 607225278, 1426881987,
   1925078388, 2162078206, 2614888103, 3248222580,
   3835390401, 4022224774, 264347078, 604807628,
   770255983, 1249150122, 1555081692, 1996064986,
   2554220882, 2821834349, 2952996808, 3210313671,
   3336571891, 3584528711, 113926993, 338241895,
   666307205, 773529912, 1294757372, 1396182291,
   1695183700, 1986661051, 2177026350, 2456956037,
   2730485921, 2820302411, 3259730800, 3345764771,
   3516065817, 3600352804, 4094571909, 275423344,
   430227734, 506948616, 659060556, 883997877,
   958139571, 1322822218, 1537002063, 1747873779,
   1955562222, 2024104815, 2227730452, 2361852424,
   2428436474, 2756734187, 3204031479, 3329325298]

/-- The eight 32-bit working variables of the SHA-256 compression function. -/
structure Hash8 where
  a : Nat
  b : Nat
  c : Nat
  d : Nat
  e : Nat
  f : Nat
  g : Nat
  h : Nat
deriving Repr, DecidableEq

/-- The SHA-256 initial hash value `H⁽⁰⁾` (FIPS 180-4, written in
decimal). -/
def sha256InitH : Hash8 :=
  { a := 1779033703, b := 3144134277, c := 1013904242, d := 2773480762
    e := 1359893119, f := 2600822924, g := 528734635, h := 1541459225 }

/-- Big-endian 8-byte encoding of a natural number (the length field of the
SHA-256 padding). -/
def beBytes8 (n : Nat) : List Nat :=
  [n / 2 ^ 56 % 256, n / 2 ^ 48 % 256, n / 2 ^ 40 % 256, n / 2 ^ 32 % 256,
   n / 2 ^ 24 % 256, n / 2 ^ 16 % 256, n / 2 ^ 8 % 256, n % 256]

/-- SHA-256 message padding: append `0x80`, zero bytes up to 56 mod 64, and
the 8-byte big-endian bit length. -/
def sha256Pad (msg : List Nat) : List Nat :=
  let len := msg.length
  let zeros := (64 + 56 - (len + 1) % 64) % 64
  msg ++ 128 :: List.replicate zeros 0 ++ beBytes8 (len * 8)

/-- Split a byte list into 64-byte blocks. -/
def chunk64 (l : List Nat) : List (List Nat) :=
  if l = [] then []
  else l.take 64 :: chunk64 (l.drop 64)
termination_by l.length
decreasing_by
  simp only [List.length_drop]
  rename_i hne
  have : 0 < l.length := List.length_pos.mpr hne
  omega

/-- The sixteen 32-bit big-endian words of one 64-byte block. -/
def wordsOfBlock (block : List Nat) : List Nat :=
  (List.range 16).map fun i =>
    block.getD (4 * i) 0 * 2 ^ 24 + block.getD (4 * i + 1) 0 * 2 ^ 16 +
      block.getD (4 * i + 2) 0 * 2 ^ 8 + block.getD (4 * i + 3) 0

/-- The SHA-256 message schedule `W` over the sixteen block words `ws`. -/
def msgSchedule (ws : List Nat) (t : Nat) : Nat :=
  if h : t < 16 then ws.getD t 0
  else
    (smallSigma1 (msgSchedule ws (t - 2)) + msgSchedule ws (t - 7) +
        smallSigma0 (msgSchedule ws (t - 15)) + msgSchedule ws (t - 16)) % 2 ^ 32
termination_by t
decreasing_by all_goals omega

/-- One round of the SHA-256 compression function. -/
def sha256Round (ws : List Nat) (st : Hash8) (t : Nat) : Hash8 :=
  let T1 := (st.h + bigSigma1 st.e + sha256Ch st.e st.f st.g +
      sha256K.getD t 0 + msgSchedule ws t) % 2 ^ 32
  let T2 := (bigSigma0 st.a + sha256Maj st.a st.b st.c) % 2 ^ 32
  { a := (T1 + T2) % 2 ^ 32, b := st.a, c := st.b, d := st.c
    e := (st.d + T1) % 2 ^ 32, f := st.e, g := st.f, h := st.g }

/-- Process one 64-byte block: 64 compression rounds, then add the working
variables back into the intermediate hash value. -/
def sha256Block (st : Hash8) (block : List Nat) : Hash8 :=
  let ws := wordsOfBlock block
  let w := (List.range 64).foldl (sha256Round ws) st
  { a := (st.a + w.a) % 2 ^ 32, b := (st.b + w.b) % 2 ^ 32
    c := (st.c + w.c) % 2 ^ 32, d := (st.d + w.d) % 2 ^ 32
    e := (st.e + w.e) % 2 ^ 32, f := (st.f + w.f) % 2 ^ 32
    g := (st.g + w.g) % 2 ^ 32, h := (st.h + w.h) % 2 ^ 32 }

/-- SHA-256 of a byte list: pad, then fold the compression function over the
64-byte blocks. -/
def sha256 (msg : List Nat) : Hash8 :=
  (chunk64 (sha256Pad msg)).foldl sha256Block sha256InitH

/-- Lower-case hex digit for `n % 16` (`digest('hex')` uses lower case). -/
def hexChar (n : Nat) : Char :=
  Nat.digitChar (n % 16)

/-- The eight lower-case hex characters of one 32-bit word, most significant
nibble first. -/
def wordHex (w : Nat) : List Char :=
  [hexChar (w / 16 ^ 7), hexChar (w / 16 ^ 6), hexChar (w / 16 ^ 5),
   hexChar (w / 16 ^ 4), hexChar (w / 16 ^ 3), hexChar (w / 16 ^ 2),
   hexChar (w / 16), hexChar w]

/-- The 64-character hex rendering of a SHA-256 digest. -/
def digestChars (st : Hash8) : List Char :=
  wordHex st.a ++ wordHex st.b ++ wordHex st.c ++ wordHex st.d ++
    wordHex st.e ++ wordHex st.f ++ wordHex st.g ++ wordHex st.h

/-- The UTF-8 bytes of a string, as naturals. -/
def toBytes (s : String) : List Nat :=
  s.toUTF8.data.toList.map fun b => b.toNat

/-- Embeds `hashContent` (`src/agent/history.ts`):
`createHash('sha256').update(content).digest('hex')`. -/
def hashContent (content : String) : String :=
  String.mk (digestChars (sha256 (toBytes content)))

/-! Line splitting and joining with JavaScript semantics:
`splitNl` models `content.split('\n')` (so `splitNl [] = [[]]`, matching
`''.split('\n') = ['']`) and `joinNl` models `lines.join('\n')`.  File
content is modelled as `List Char`. -/

/-- Helper for `splitNl`: first piece and remaining pieces, so that the
result is non-empty by construction. -/
def splitNlAux : List Char → List Char × List (List Char)
  | [] => ([], [])
  | c :: cs =>
    let r := splitNlAux cs
    if c = '\n' then ([], r.1 :: r.2) else (c :: r.1, r.2)

/-- `content.split('\n')` on character lists. -/
def splitNl (l : List Char) : List (List Char) :=
  (splitNlAux l).1 :: (splitNlAux l).2

/-- `lines.join('\n')` on character lists. -/
def joinNl : List (List Char) → List Char
  | [] => []
  | [p] => p
  | p :: ps => p ++ '\n' :: joinNl ps

/-! The edit/undo/redo protocol of `src/server/api.ts` is not among the
available sources; it is modelled from the specification (§4.2).  The model
is per file: the handlers read and rewrite one file's content, consult that
file's event log, and append one event per successful operation. -/

/-- Modelled from the spec: the error taxonomy of §7 of the missing
`src/server/api.ts` (`ValidationError` → 400, `EmptyHistoryError` → 400,
`ConflictError` → 409, `NotFoundError` → 404). -/
inductive ApiError where
  | validation
  | emptyHistory
  | conflict
  | notFound
deriving Repr, DecidableEq

/-- Modelled from the spec: the HTTP status code of each error (§7). -/
def statusOf : ApiError → Nat
  | .validation => 400
  | .emptyHistory => 400
  | .conflict => 409
  | .notFound => 404

/-- Modelled from the spec: the per-file state the missing handlers of
`src/server/api.ts` operate on — the file's current content, the file's
event log, and the sequence counter. -/
structure FileState where
  path : String
  content : List Char
  events : List EditEvent
  seqCtr : Nat
deriving Repr, DecidableEq

/-- The initial state of a file that has never been edited. -/
def mkFileState (path : String) (content : List Char) : FileState :=
  { path := path, content := content, events := [], seqCtr := 0 }

/-- One apply request: line range, replacement text, and the wall-clock
timestamp of the request. -/
structure ApplyOp where
  startLine : Nat
  endLine : Nat
  modified : List Char
  now : Nat
deriving Repr, DecidableEq

/-- Modelled from the spec: the **Apply** handler of the missing
`src/server/api.ts` (§4.2).  Splits the file into lines, validates that
`[startLine, endLine]` is a 1-based inclusive line range in the file with
`startLine ≤ endLine` (`ValidationError` otherwise), extracts `original`,
replaces the range with the lines of `modified`, rewrites the file, and
appends a plain event (no `meta`) recording the measured hashes and line
counts. -/
def applyEdit (fs : FileState) (op : ApplyOp) : Except ApiError FileState :=
  if 1 ≤ op.startLine ∧ op.startLine ≤ op.endLine ∧
      op.endLine ≤ (splitNl fs.content).length then
    let lines := splitNl fs.content
    let origLines := (lines.drop (op.startLine - 1)).take (op.endLine - (op.startLine - 1))
    let modLines := splitNl op.modified
    let newLines := lines.take (op.startLine - 1) ++ modLines ++ lines.drop op.endLine
    let newContent := joinNl newLines
    let ev : EditEvent :=
      { seq := fs.seqCtr + 1
        filePath := fs.path
        startLine := op.startLine
        endLine := op.endLine
        original := String.mk (joinNl origLines)
        modified := String.mk op.modified
        originalLineCount := origLines.length
        modifiedLineCount := modLines.length
        hashBefore := hashContent (String.mk fs.content)
        hashAfter := hashContent (String.mk newContent)
        timestamp := op.now
        meta := none }
    .ok { fs with content := newContent, events := fs.events ++ [ev],
                  seqCtr := fs.seqCtr + 1 }
  else
    .error .validation

/-- Modelled from the spec: the **Undo** handler of the missing
`src/server/api.ts` (§4.2).  Finds the last effective event `E`
(`EmptyHistoryError` if none), checks the current content hash against
`E.hashAfter` before any mutation (`ConflictError` on mismatch), then
replaces the produced range `[E.startLine, E.startLine + E.modifiedLineCount - 1]`
with `E.original`, rewrites the file and appends the inverse event with
`meta = { _undo := true, _undoTarget := E.seq }`.  Returns the new state and
the scroll hint (first line of the restored text). -/
def undoEdit (fs : FileState) (now : Nat) :
    Except ApiError (FileState × String) :=
  let events := fs.events
  let ineffective := buildIneffectiveSeqs events
  match findLastEffective events ineffective with
  | none => .error .emptyHistory
  | some E =>
    if hashContent (String.mk fs.content) = E.hashAfter then
      let lines := splitNl fs.content
      let origLines := splitNl E.original.data
      let newLines := lines.take (E.startLine - 1) ++ origLines ++
        lines.drop (E.startLine + E.modifiedLineCount - 1)
      let newContent := joinNl newLines
      let ev : EditEvent :=
        { seq := fs.seqCtr + 1
          filePath := fs.path
          startLine := E.startLine
          endLine := E.startLine + origLines.length - 1
          original := E.modified
          modified := E.original
          originalLineCount := E.modifiedLineCount
          modifiedLineCount := origLines.length
          hashBefore := E.hashAfter
          hashAfter := hashContent (String.mk newContent)
          timestamp := now
          meta := some { _undo := true, _undoTarget := some E.seq } }
      .ok ({ fs with content := newContent, events := events ++ [ev],
                     seqCtr := fs.seqCtr + 1 },
           String.mk (origLines.headD []))
    else
      .error .conflict

/-- Modelled from the spec: the **Redo** handler of the missing
`src/server/api.ts` (§4.2).  Finds the last undone event `U`
(`EmptyHistoryError` if none), checks the current content hash against
`U.hashAfter` before any mutation (`ConflictError` on mismatch), looks up
the target event `T` referenced by `U.undoTarget`, replaces
`[U.startLine, U.startLine + U.modifiedLineCount - 1]` with `T.modified`,
rewrites the file and appends the redo event with
`meta = { _redo := true, _redoTarget := U.seq }`. -/
def redoEdit (fs : FileState) (now : Nat) :
    Except ApiError (FileState × String) :=
  let events := fs.events
  let ineffective := buildIneffectiveSeqs events
  match findLastUndone events ineffective with
  | none => .error .emptyHistory
  | some U =>
    if hashContent (String.mk fs.content) = U.hashAfter then
      match events.find? fun e =>
          decide (some e.seq = (U.meta.map fun m => m._undoTarget).join) with
      | none => .error .notFound
      | some T =>
        let lines := splitNl fs.content
        let modLines := splitNl T.modified.data
        let newLines := lines.take (U.startLine - 1) ++ modLines ++
          lines.drop (U.startLine + U.modifiedLineCount - 1)
        let newContent := joinNl newLines
        let ev : EditEvent :=
          { seq := fs.seqCtr + 1
            filePath := fs.path
            startLine := U.startLine
            endLine := U.startLine + modLines.length - 1
            original := U.modified
            modified := T.modified
            originalLineCount := U.modifiedLineCount
            modifiedLineCount := modLines.length
            hashBefore := U.hashAfter
            hashAfter := hashContent (String.mk newContent)
            timestamp := now
            meta := some { _redo := true, _redoTarget := some U.seq } }
        .ok ({ fs with content := newContent, events := events ++ [ev],
                       seqCtr := fs.seqCtr + 1 },
             String.mk (modLines.headD []))
    else
      .error .conflict

/-- The server semantics of a failed undo: the state is unchanged. -/
def stepUndo (fs : FileState) (now : Nat) : FileState :=
  match undoEdit fs now with
  | .ok (fs', _) => fs'
  | .error _ => fs

/-- The server semantics of a failed redo: the state is unchanged. -/
def stepRedo (fs : FileState) (now : Nat) : FileState :=
  match redoEdit fs now with
  | .ok (fs', _) => fs'
  | .error _ => fs

/-- Run a sequence of apply requests; a request that fails leaves the state
unchanged (the server answers 400/404 and keeps serving). -/
def runApplies (fs : FileState) (ops : List ApplyOp) : FileState :=
  ops.foldl (fun s op =>
    match applyEdit s op with
    | .ok s' => s'
    | .error _ => s) fs

/-- The store states reachable from the initial (or reset) state by
`appendEvent` calls. -/
inductive Reachable : Store → Prop
  | init : Reachable initialStore
  | append (st : Store) (filePath : String) (event : EventPayload) (now : Nat) :
      Reachable st → Reachable (appendEvent st filePath event now).1

/-- A placeholder event used only as the default of `List.getD`. -/
def dummyEvent : EditEvent :=
  { seq := 0, filePath := "", startLine := 0, endLine := 0, original := ""
    modified := "", originalLineCount := 0, modifiedLineCount := 0
    hashBefore := "", hashAfter := "", timestamp := 0, meta := none }

/-- The set of seqs described by the spec's words for
`computeIneffectiveSeqs`: seqs of events that are referenced as an
undo/redo target by an event occurring **later** in the log.  Used to
compare `buildIneffectiveSeqs` against the specified behaviour. -/
def laterReferencedSeqs (events : List EditEvent) : Finset Nat :=
  ((Finset.range events.length).filter fun i =>
      ∃ j ∈ Finset.range events.length, i < j ∧
        (events.getD i dummyEvent).seq ∈ refsOf (events.getD j dummyEvent)).image
    fun i => (events.getD i dummyEvent).seq

/-- A concrete plain event whose recorded `hashAfter` cannot match any real
digest (it is empty), used to exhibit conflict detection. -/
def sampleBadEvent : EditEvent :=
  { seq := 1, filePath := "test.md", startLine := 2, endLine := 2
    original := "line2", modified := "MODIFIED", originalLineCount := 1
    modifiedLineCount := 1, hashBefore := "h0", hashAfter := ""
    timestamp := 1, meta := none }

/-- A concrete undo event with an unmatchable `hashAfter`; its target seq 99
does not occur in the sample log, so the event itself stays effective. -/
def sampleUndoEvent : EditEvent :=
  { seq := 2, filePath := "test.md", startLine := 2, endLine := 2
    original := "MODIFIED", modified := "line2", originalLineCount := 1
    modifiedLineCount := 1, hashBefore := "", hashAfter := ""
    timestamp := 2, meta := some { _undo := true, _undoTarget := some 99 } }

/-- A concrete per-file state in which both the undo candidate and the redo
candidate expect a hash no file content can have. -/
def sampleConflictState : FileState :=
  { path := "test.md", content := "x".data
    events := [sampleBadEvent, sampleUndoEvent], seqCtr := 2 }

/-- A concrete event that carries an undo reference to its own seq: it sits
at the only (hence not a later) position of the one-element log that
contains it. -/
def selfUndoEvent : EditEvent :=
  { seq := 1, filePath := "test.md", startLine := 1, endLine := 1
    original := "a", modified := "b", originalLineCount := 1
    modifiedLineCount := 1, hashBefore := "h0", hashAfter := "h1"
    timestamp := 1, meta := some { _undo := true, _undoTarget := some 1 } }

/-- A concrete event whose `meta` is present but carries neither the undo
flag nor the redo flag — only advisory fields. -/
def sampleMetaOnlyEvent : EditEvent :=
  { seq := 3, filePath := "test.md", startLine := 1, endLine := 1
    original := "a", modified := "b", originalLineCount := 1
    modifiedLineCount := 1, hashBefore := "h0", hashAfter := "h1"
    timestamp := 3
    meta := some { instruction := some "reword", mode := some "edit" } }

/-- A concrete plain apply payload (no `meta`). -/
def samplePayload : EventPayload :=
  { filePath := "test.md", startLine := 2, endLine := 2, original := "line2"
    modified := "MODIFIED", originalLineCount := 1, modifiedLineCount := 1
    hashBefore := "h0", hashAfter := "h1", meta := none }

/-- A concrete undo payload targeting seq 1. -/
def sampleUndoPayload : EventPayload :=
  { filePath := "test.md", startLine := 2, endLine := 2, original := "MODIFIED"
    modified := "line2", originalLineCount := 1, modifiedLineCount := 1
    hashBefore := "h1", hashAfter := "h0"
    meta := some { _undo := true, _undoTarget := some 1 } }

/-! Basic properties of `splitNl` and `joinNl`. -/

lemma joinNl_cons_cons (p q : List Char) (ps : List (List Char)) :
    joinNl (p :: q :: ps) = p ++ '\n' :: joinNl (q :: ps) := rfl

lemma joinNl_cons_head (c : Char) (p : List Char) (ps : List (List Char)) :
    joinNl ((c :: p) :: ps) = c :: joinNl (p :: ps) := by
  cases ps <;> rfl

lemma joinNl_splitNl (l : List Char) : joinNl (splitNl l) = l := by
  induction l with
  | nil => rfl
  | cons c cs ih =>
    by_cases hc : c = '\n'
    · subst hc
      have h1 : splitNl ('\n' :: cs) = [] :: (splitNlAux cs).1 :: (splitNlAux cs).2 := by
        simp [splitNl, splitNlAux]
      rw [h1, joinNl_cons_cons, List.nil_append,
        show (splitNlAux cs).1 :: (splitNlAux cs).2 = splitNl cs from rfl, ih]
    · have h1 : splitNl (c :: cs) = (c :: (splitNlAux cs).1) :: (splitNlAux cs).2 := by
        simp [splitNl, splitNlAux, hc]
      rw [h1, joinNl_cons_head,
        show (splitNlAux cs).1 :: (splitNlAux cs).2 = splitNl cs from rfl, ih]

lemma splitNlAux_no_newline (l : List Char) :
    '\n' ∉ (splitNlAux l).1 ∧ ∀ p ∈ (splitNlAux l).2, '\n' ∉ p := by
  induction l with
  | nil => simp [splitNlAux]
  | cons c cs ih =>
    by_cases hc : c = '\n'
    · subst hc
      simp only [splitNlAux, if_pos rfl]
      refine ⟨by simp, ?_⟩
      intro p hp
      rcases List.mem_cons.mp hp with h | h
      · exact h ▸ ih.1
      · exact ih.2 p h
    · simp only [splitNlAux, if_neg hc]
      refine ⟨?_, ih.2⟩
      intro hmem
      rcases List.mem_cons.mp hmem with h | h
      · exact hc h.symm
      · exact ih.1 h

lemma splitNl_no_newline (l : List Char) : ∀ p ∈ splitNl l, '\n' ∉ p := by
  intro p hp
  rcases List.mem_cons.mp hp with h | h
  · exact h ▸ (splitNlAux_no_newline l).1
  · exact (splitNlAux_no_newline l).2 p h

lemma splitNlAux_of_no_newline (p : List Char) (hp : '\n' ∉ p) :
    splitNlAux p = (p, []) := by
  induction p with
  | nil => rfl
  | cons c cs ih =>
    have hc : c ≠ '\n' := fun h => hp (h ▸ List.mem_cons_self c cs)
    have hcs : '\n' ∉ cs := fun h => hp (List.mem_cons_of_mem c h)
    simp [splitNlAux, hc, ih hcs]

lemma splitNlAux_append_newline (p r : List Char) (hp : '\n' ∉ p) :
    splitNlAux (p ++ '\n' :: r) = (p, (splitNlAux r).1 :: (splitNlAux r).2) := by
  induction p with
  | nil => simp [splitNlAux]
  | cons c cs ih =>
    have hc : c ≠ '\n' := fun h => hp (h ▸ List.mem_cons_self c cs)
    have hcs : '\n' ∉ cs := fun h => hp (List.mem_cons_of_mem c h)
    simp [splitNlAux, hc, ih hcs]

lemma splitNl_joinNl (ps : List (List Char)) (hne : ps ≠ [])
    (hnl : ∀ p ∈ ps, '\n' ∉ p) : splitNl (joinNl ps) = ps := by
  induction ps with
  | nil => exact absurd rfl hne
  | cons p qs ih =>
    cases qs with
    | nil =>
      show splitNl (joinNl [p]) = [p]
      have : joinNl [p] = p := rfl
      rw [this]
      unfold splitNl
      rw [splitNlAux_of_no_newline p (hnl p (List.mem_cons_self p []))]
    | cons q qs' =>
      rw [joinNl_cons_cons]
      unfold splitNl
      rw [splitNlAux_append_newline p (joinNl (q :: qs'))
        (hnl p (List.mem_cons_self p (q :: qs')))]
      have hih : splitNl (joinNl (q :: qs')) = q :: qs' :=
        ih (by simp) (fun x hx => hnl x (List.mem_cons_of_mem p hx))
      unfold splitNl at hih
      rw [show ((splitNlAux (joinNl (q :: qs'))).1 :: (splitNlAux (joinNl (q :: qs'))).2)
          = q :: qs' from hih]

lemma splitNl_ne_nil (l : List Char) : splitNl l ≠ [] := by
  simp [splitNl]

/-! Facts about logs that contain only plain (meta-free) events. -/

lemma refsOf_eq_empty (e : EditEvent) (h : e.meta = none) : refsOf e = ∅ := by
  simp [refsOf, h]

lemma buildIneffectiveSeqs_foldl_plain (l : List EditEvent) (acc : Finset Nat)
    (h : ∀ e ∈ l, e.meta = none) :
    l.foldl (fun ineffective e => ineffective ∪ refsOf e) acc = acc := by
  induction l generalizing acc with
  | nil => rfl
  | cons e es ih =>
    simp only [List.foldl_cons]
    rw [refsOf_eq_empty e (h e (List.mem_cons_self e es)), Finset.union_empty]
    exact ih acc (fun x hx => h x (List.mem_cons_of_mem e hx))

lemma buildIneffectiveSeqs_plain (l : List EditEvent)
    (h : ∀ e ∈ l, e.meta = none) : buildIneffectiveSeqs l = ∅ :=
  buildIneffectiveSeqs_foldl_plain l ∅ h

lemma findLastEffective_append_last (l : List EditEvent) (ev : EditEvent)
    (ineffective : Finset Nat) (hseq : ev.seq ∉ ineffective)
    (hundo : isUndoEvent ev = false) :
    findLastEffective (l ++ [ev]) ineffective = some ev := by
  unfold findLastEffective
  have hrev : (l ++ [ev]).reverse = ev :: l.reverse := by simp
  rw [hrev]
  have hp : (fun e : EditEvent =>
      !(decide (e.seq ∈ ineffective)) && !(isUndoEvent e)) ev = true := by
    simp [hseq, hundo]
  exact List.find?_cons_of_pos l.reverse hp

/-- Splicing the recorded original back over the range the edit produced
restores the original line list. -/
lemma restore_lines (lines modLines : List (List Char)) (s e : Nat)
    (hs1 : 1 ≤ s) (hse : s ≤ e) (hel : e ≤ lines.length)
    (hlnl : ∀ p ∈ lines, '\n' ∉ p) (hmnl : ∀ p ∈ modLines, '\n' ∉ p)
    (hmne : modLines ≠ []) :
    (splitNl (joinNl (lines.take (s - 1) ++ modLines ++ lines.drop e))).take (s - 1) ++
      splitNl (joinNl ((lines.drop (s - 1)).take (e - (s - 1)))) ++
      (splitNl (joinNl (lines.take (s - 1) ++ modLines ++ lines.drop e))).drop
        (s + modLines.length - 1) = lines := by
  have hnewne : lines.take (s - 1) ++ modLines ++ lines.drop e ≠ [] := by
    intro hcontra
    rcases List.append_eq_nil.mp hcontra with ⟨h1, h2⟩
    exact hmne (List.append_eq_nil.mp h1).2
  have hnewnl : ∀ p ∈ lines.take (s - 1) ++ modLines ++ lines.drop e, '\n' ∉ p := by
    intro p hp
    rcases List.mem_append.mp hp with h | h
    · rcases List.mem_append.mp h with h' | h'
      · exact hlnl p (List.take_subset _ _ h')
      · exact hmnl p h'
    · exact hlnl p (List.drop_subset _ _ h)
  rw [List.append_assoc, splitNl_joinNl _ hnewne hnewnl]
  have horigne : (lines.drop (s - 1)).take (e - (s - 1)) ≠ [] := by
    have hlen : ((lines.drop (s - 1)).take (e - (s - 1))).length =
        min (e - (s - 1)) (lines.length - (s - 1)) := by
      rw [List.length_take, List.length_drop]
    intro hcontra
    rw [hcontra] at hlen
    simp only [List.length_nil] at hlen
    omega
  have horignl : ∀ p ∈ (lines.drop (s - 1)).take (e - (s - 1)), '\n' ∉ p := by
    intro p hp
    exact hlnl p (List.drop_subset _ _ (List.take_subset _ _ hp))
  rw [splitNl_joinNl _ horigne horignl]
  have hlentake : (lines.take (s - 1)).length = s - 1 := by
    rw [List.length_take]
    omega
  have htake : (lines.take (s - 1) ++ (modLines ++ lines.drop e)).take (s - 1) =
      lines.take (s - 1) := List.take_left' hlentake
  have hdropidx : s + modLines.length - 1 = (s - 1) + modLines.length := by omega
  have hlenpre : (lines.take (s - 1) ++ modLines).length = (s - 1) + modLines.length := by
    rw [List.length_append, hlentake]
  have hdrop : (lines.take (s - 1) ++ (modLines ++ lines.drop e)).drop
      ((s - 1) + modLines.length) = lines.drop e := by
    rw [← List.append_assoc]
    exact List.drop_left' hlenpre
  rw [List.append_assoc, htake, hdropidx, hdrop]
  have hdd : (lines.drop (s - 1)).drop (e - (s - 1)) = lines.drop e := by
    rw [List.drop_drop]
    congr 1
    omega
  rw [← hdd, List.take_append_drop, List.take_append_drop]

/-- An apply that succeeds on a state with a plain log can be undone, and the
undo restores the pre-apply content exactly. -/
lemma undo_after_apply (fs : FileState) (op : ApplyOp) (fs' : FileState) (now : Nat)
    (hplain : ∀ ev ∈ fs.events, ev.meta = none)
    (h : applyEdit fs op = .ok fs') :
    ∃ fs'' hint, undoEdit fs' now = .ok (fs'', hint) ∧ fs''.content = fs.content := by
  unfold applyEdit at h
  split at h
  case isFalse => exact absurd h (by simp)
  case isTrue hcond =>
    obtain ⟨hs1, hse, hel⟩ := hcond
    set lines := splitNl fs.content with hlines
    set origLines := (lines.drop (op.startLine - 1)).take (op.endLine - (op.startLine - 1))
      with horigdef
    set modLines := splitNl op.modified with hmoddef
    set newLines := lines.take (op.startLine - 1) ++ modLines ++ lines.drop op.endLine
      with hnewdef
    set ev : EditEvent :=
      ({ seq := fs.seqCtr + 1,
         filePath := fs.path,
         startLine := op.startLine,
         endLine := op.endLine,
         original := String.mk (joinNl origLines),
         modified := String.mk op.modified,
         originalLineCount := origLines.length,
         modifiedLineCount := modLines.length,
         hashBefore := hashContent (String.mk fs.content),
         hashAfter := hashContent (String.mk (joinNl newLines)),
         timestamp := op.now,
         meta := none } : EditEvent) with hevdef
    have hfs' : fs' = { fs with content := joinNl newLines, events := fs.events ++ [ev], seqCtr := fs.seqCtr + 1 } := by
      cases h
      rfl
    have hineff : buildIneffectiveSeqs (fs.events ++ [ev]) = ∅ := by
      apply buildIneffectiveSeqs_plain
      intro x hx
      rcases List.mem_append.mp hx with hx' | hx'
      · exact hplain x hx'
      · rw [List.mem_singleton.mp hx']
    have hfind : findLastEffective (fs.events ++ [ev]) ∅ = some ev :=
      findLastEffective_append_last fs.events ev ∅ (by simp) (by rw [hevdef]; rfl)
    rw [hfs']
    unfold undoEdit
    simp only [hineff, hfind]
    rw [if_pos trivial]
    refine ⟨_, _, rfl, ?_⟩
    show joinNl ((splitNl (joinNl newLines)).take (op.startLine - 1) ++
      splitNl (joinNl origLines) ++
      (splitNl (joinNl newLines)).drop (op.startLine + modLines.length - 1))
      = fs.content
    rw [horigdef, hnewdef]
    rw [restore_lines lines modLines op.startLine op.endLine hs1 hse hel
      (by rw [hlines]; exact splitNl_no_newline fs.content)
      (by rw [hmoddef]; exact splitNl_no_newline op.modified)
      (by rw [hmoddef]; exact splitNl_ne_nil op.modified)]
    rw [hlines]
    exact joinNl_splitNl fs.content

lemma applyEdit_plain_preserved (fs : FileState) (op : ApplyOp) (fs' : FileState)
    (hplain : ∀ ev ∈ fs.events, ev.meta = none)
    (h : applyEdit fs op = .ok fs') : ∀ ev ∈ fs'.events, ev.meta = none := by
  unfold applyEdit at h
  split at h
  case isFalse => exact absurd h (by simp)
  case isTrue hcond =>
    cases h
    intro x hx
    rcases List.mem_append.mp hx with h' | h'
    · exact hplain x h'
    · rw [List.mem_singleton.mp h']

lemma runApplies_cons (fs : FileState) (op : ApplyOp) (ops : List ApplyOp) :
    runApplies fs (op :: ops) =
      runApplies (match applyEdit fs op with
        | .ok s' => s'
        | .error _ => fs) ops := rfl

lemma runApplies_plain (fs : FileState) (ops : List ApplyOp)
    (hplain : ∀ ev ∈ fs.events, ev.meta = none) :
    ∀ ev ∈ (runApplies fs ops).events, ev.meta = none := by
  induction ops generalizing fs with
  | nil => exact hplain
  | cons op ops ih =>
    rw [runApplies_cons]
    cases hap : applyEdit fs op with
    | ok s' => exact ih s' (applyEdit_plain_preserved fs op s' hplain hap)
    | error err => exact ih fs hplain

/-- C1: For every file and every sequence of applies, the Undo operation
reverses the most recent effective apply event: after any sequence of apply
requests whose last successful request produced state `fs'`, `undoEdit`
succeeds on `fs'` and restores the file content byte-for-byte to the exact
pre-edit content (the content before that apply), including the original
line count when the edit expanded or collapsed the number of lines (content
equality as character lists subsumes the line count).  The undo performs
exactly the replacement of the produced range
`[E.startLine, E.startLine + E.modifiedLineCount - 1]` by `E.original`
(see `undoEdit`). -/
theorem undo_reverses_most_recent_apply (path : String) (c : List Char)
    (ops : List ApplyOp) (op : ApplyOp) (fs' : FileState) (now : Nat)
    (h : applyEdit (runApplies (mkFileState path c) ops) op = .ok fs') :
    ∃ fs'' hint, undoEdit fs' now = .ok (fs'', hint) ∧
      fs''.content = (runApplies (mkFileState path c) ops).content :=
  undo_after_apply _ op fs' now
    (runApplies_plain _ ops (by intro ev hev; exact absurd hev (by simp [mkFileState])))
    h

/-- Witness for C1 at the spec's concrete scenario: the three-line file with
line 2 replaced by `MODIFIED`. -/
theorem undo_reverses_most_recent_apply_witness :
    ∃ fs'' hint,
      undoEdit (runApplies (mkFileState "test.md" "line1\nline2\nline3\n".data)
        [⟨2, 2, "MODIFIED".data, 5⟩]) 9 = .ok (fs'', hint) ∧
      fs''.content = (runApplies (mkFileState "test.md" "line1\nline2\nline3\n".data) []).content := by
  have h : applyEdit (runApplies (mkFileState "test.md" "line1\nline2\nline3\n".data) [])
      ⟨2, 2, "MODIFIED".data, 5⟩ =
      .ok (runApplies (mkFileState "test.md" "line1\nline2\nline3\n".data)
        [⟨2, 2, "MODIFIED".data, 5⟩]) := by
    show applyEdit (mkFileState "test.md" "line1\nline2\nline3\n".data)
        ⟨2, 2, "MODIFIED".data, 5⟩ =
      .ok (match applyEdit (mkFileState "test.md" "line1\nline2\nline3\n".data)
          ⟨2, 2, "MODIFIED".data, 5⟩ with
        | .ok s' => s'
        | .error _ => mkFileState "test.md" "line1\nline2\nline3\n".data)
    unfold applyEdit
    rw [if_pos (by decide)]
  exact undo_reverses_most_recent_apply "test.md" "line1\nline2\nline3\n".data []
    ⟨2, 2, "MODIFIED".data, 5⟩ _ 9 h

/-! Digest shape lemmas, shared by the conflict and hash theorems. -/

lemma wordHex_length (w : Nat) : (wordHex w).length = 8 := rfl

lemma digestChars_length (st : Hash8) : (digestChars st).length = 64 := by
  simp [digestChars, wordHex]

lemma hashContent_length (s : String) : (hashContent s).length = 64 :=
  digestChars_length (sha256 (toBytes s))

/-- C2: on every Undo or Redo request whose relevant prior event records a
hash different from the current content's hash, the operation fails with
`ConflictError` (HTTP 409) and the state — file content and event log — is
completely unchanged; the failure occurs before any mutation. -/
theorem conflict_detected_before_mutation (fs : FileState) (now : Nat) :
    (∀ E, findLastEffective fs.events (buildIneffectiveSeqs fs.events) = some E →
      hashContent (String.mk fs.content) ≠ E.hashAfter →
      undoEdit fs now = .error .conflict ∧ statusOf .conflict = 409 ∧
        stepUndo fs now = fs) ∧
    (∀ U, findLastUndone fs.events (buildIneffectiveSeqs fs.events) = some U →
      hashContent (String.mk fs.content) ≠ U.hashAfter →
      redoEdit fs now = .error .conflict ∧ stepRedo fs now = fs) := by
  constructor
  · intro E hE hne
    have h1 : undoEdit fs now = .error .conflict := by
      unfold undoEdit
      simp only [hE]
      rw [if_neg hne]
    refine ⟨h1, rfl, ?_⟩
    unfold stepUndo
    rw [h1]
  · intro U hU hne
    have h1 : redoEdit fs now = .error .conflict := by
      unfold redoEdit
      simp only [hU]
      rw [if_neg hne]
    refine ⟨h1, ?_⟩
    unfold stepRedo
    rw [h1]

/-- Witness for C2: in `sampleConflictState` both the undo and the redo
candidate expect the empty string as hash, which no 64-character digest can
equal, so both requests answer `ConflictError` and leave the state alone. -/
theorem conflict_detected_before_mutation_witness :
    undoEdit sampleConflictState 7 = .error .conflict ∧
      stepUndo sampleConflictState 7 = sampleConflictState ∧
      redoEdit sampleConflictState 7 = .error .conflict ∧
      stepRedo sampleConflictState 7 = sampleConflictState := by
  have hne : hashContent (String.mk sampleConflictState.content) ≠ ("" : String) := by
    intro hcontra
    have hl := hashContent_length (String.mk sampleConflictState.content)
    rw [hcontra] at hl
    exact absurd hl (by decide)
  have h := conflict_detected_before_mutation sampleConflictState 7
  have hu := h.1 sampleBadEvent (by decide) hne
  have hr := h.2 sampleUndoEvent (by decide) hne
  exact ⟨hu.1, hu.2.2, hr.1, hr.2⟩

/-! C3: membership in `buildIneffectiveSeqs`. -/

lemma mem_foldl_union (events : List EditEvent) (acc : Finset Nat) (t : Nat) :
    t ∈ events.foldl (fun ineffective e => ineffective ∪ refsOf e) acc ↔
      t ∈ acc ∨ ∃ e ∈ events, t ∈ refsOf e := by
  induction events generalizing acc with
  | nil => simp
  | cons e es ih =>
    rw [List.foldl_cons, ih]
    simp only [Finset.mem_union, List.mem_cons]
    constructor
    · rintro ((h | h) | ⟨x, hx, hr⟩)
      · exact Or.inl h
      · exact Or.inr ⟨e, Or.inl rfl, h⟩
      · exact Or.inr ⟨x, Or.inr hx, hr⟩
    · rintro (h | ⟨x, hx | hx, hr⟩)
      · exact Or.inl (Or.inl h)
      · exact Or.inl (Or.inr (hx ▸ hr))
      · exact Or.inr ⟨x, hx, hr⟩

/-- C3 (as holding on the code): `buildIneffectiveSeqs(events)` is exactly
the set of seqs referenced as an `_undoTarget` (under the `_undo` flag) or a
`_redoTarget` (under the `_redo` flag) by **any** event of the log — the
position of the referencing event does not matter, so a reference by an
earlier event, or by the event itself, also lands in the set. -/
theorem buildIneffectiveSeqs_mem (t : Nat) (events : List EditEvent) :
    t ∈ buildIneffectiveSeqs events ↔ ∃ e ∈ events, t ∈ refsOf e := by
  unfold buildIneffectiveSeqs
  rw [mem_foldl_union]
  simp

/-- Witness for C3's amended statement at a concrete log. -/
theorem buildIneffectiveSeqs_mem_witness :
    1 ∈ buildIneffectiveSeqs [selfUndoEvent] ↔
      ∃ e ∈ [selfUndoEvent], 1 ∈ refsOf e :=
  buildIneffectiveSeqs_mem 1 [selfUndoEvent]

/-- Counterexample to C3 as stated: the one-event log whose event undoes its
own seq.  No event is referenced by a *later* event (there is only one
position), so the claimed result is `∅`, but the code returns `{1}`. -/
theorem buildIneffectiveSeqs_later_only_counterexample :
    buildIneffectiveSeqs [selfUndoEvent] ≠ laterReferencedSeqs [selfUndoEvent] := by
  decide

/-! C10: a meta object without undo/redo flags is inert. -/

lemma refsOf_eq_empty_of_flags (e : EditEvent) (m : EditMeta)
    (hm : e.meta = some m) (hu : m._undo = false) (hr : m._redo = false) :
    refsOf e = ∅ := by
  simp [refsOf, hm, hu, hr]

/-- C10: an event whose `meta` is present but carries neither `_undo` nor
`_redo` behaves exactly like a plain event: it contributes nothing to
`buildIneffectiveSeqs`, it is a valid candidate result of
`findLastEffective` (returned when it is last and not ineffective), and it
is never returned by `findLastUndone`. -/
theorem meta_without_flags_is_plain (m : EditMeta) (hu : m._undo = false)
    (hr : m._redo = false) (e : EditEvent) (hm : e.meta = some m) :
    (∀ l1 l2 : List EditEvent,
      buildIneffectiveSeqs (l1 ++ e :: l2) = buildIneffectiveSeqs (l1 ++ l2)) ∧
    (∀ (l : List EditEvent) (ineffective : Finset Nat), e.seq ∉ ineffective →
      findLastEffective (l ++ [e]) ineffective = some e) ∧
    (∀ (events : List EditEvent) (ineffective : Finset Nat),
      findLastUndone events ineffective ≠ some e) := by
  have hrefs : refsOf e = ∅ := refsOf_eq_empty_of_flags e m hm hu hr
  have hundo : isUndoEvent e = false := by simp [isUndoEvent, hm, hu]
  refine ⟨?_, ?_, ?_⟩
  · intro l1 l2
    unfold buildIneffectiveSeqs
    rw [List.foldl_append, List.foldl_append, List.foldl_cons, hrefs,
      Finset.union_empty]
  · intro l ineffective hseq
    exact findLastEffective_append_last l e ineffective hseq hundo
  · intro events ineffective hcontra
    have hp := List.find?_some hcontra
    simp only [Bool.and_eq_true] at hp
    rw [hundo] at hp
    exact Bool.false_ne_true hp.2

/-- Witness for C10 at a concrete event carrying only advisory meta. -/
theorem meta_without_flags_is_plain_witness :
    buildIneffectiveSeqs ([selfUndoEvent] ++ sampleMetaOnlyEvent :: []) =
      buildIneffectiveSeqs ([selfUndoEvent] ++ []) ∧
    findLastEffective ([] ++ [sampleMetaOnlyEvent]) ∅ = some sampleMetaOnlyEvent ∧
    findLastUndone [sampleMetaOnlyEvent] ∅ ≠ some sampleMetaOnlyEvent := by
  have h := meta_without_flags_is_plain
    { instruction := some "reword", mode := some "edit" } rfl rfl
    sampleMetaOnlyEvent rfl
  exact ⟨h.1 [selfUndoEvent] [], h.2.1 [] ∅ (by decide), h.2.2 [sampleMetaOnlyEvent] ∅⟩

/-! C4: characterisation of `findLastEffective`. -/

lemma find?_eq_some_decomp {α : Type} (p : α → Bool) (l : List α) (a : α) :
    l.find? p = some a ↔
      ∃ l1 l2, l = l1 ++ a :: l2 ∧ p a = true ∧ ∀ x ∈ l1, ¬(p x = true) := by
  induction l with
  | nil => simp
  | cons x xs ih =>
    by_cases hx : p x = true
    · rw [List.find?_cons_of_pos _ hx]
      constructor
      · intro h
        injection h with h
        subst h
        exact ⟨[], xs, rfl, hx, by simp⟩
      · rintro ⟨l1, l2, heq, hpa, hforb⟩
        cases l1 with
        | nil =>
          simp only [List.nil_append, List.cons.injEq] at heq
          rw [heq.1]
        | cons c l1' =>
          simp only [List.cons_append, List.cons.injEq] at heq
          exact absurd (heq.1 ▸ hx) (hforb c (List.mem_cons_self c l1'))
    · rw [List.find?_cons_of_neg _ hx, ih]
      constructor
      · rintro ⟨l1, l2, heq, hpa, hforb⟩
        refine ⟨x :: l1, l2, by rw [heq, List.cons_append], hpa, ?_⟩
        intro y hy
        rcases List.mem_cons.mp hy with h | h
        · exact h ▸ hx
        · exact hforb y h
      · rintro ⟨l1, l2, heq, hpa, hforb⟩
        cases l1 with
        | nil =>
          simp only [List.nil_append, List.cons.injEq] at heq
          exact absurd (heq.1 ▸ hpa) hx
        | cons c l1' =>
          simp only [List.cons_append, List.cons.injEq] at heq
          exact ⟨l1', l2, heq.2, hpa,
            fun y hy => hforb y (List.mem_cons_of_mem c hy)⟩

lemma effPred_iff (ineffective : Finset Nat) (x : EditEvent) :
    ((!(decide (x.seq ∈ ineffective)) && !(isUndoEvent x)) = true) ↔
      (x.seq ∉ ineffective ∧ isUndoEvent x = false) := by
  simp [Bool.and_eq_true]

/-- C4: `findLastEffective` returns the event at the greatest index whose
seq is not ineffective and whose meta does not carry the undo flag — i.e.
`some e` exactly when the log decomposes as `pre ++ e :: post` with `e`
satisfying the predicate and nothing in `post` satisfying it — and `none`
exactly when no event of the log satisfies the predicate.  The predicate
does not test the redo flag, so a redo-flagged event that is not
ineffective is a valid result. -/
theorem findLastEffective_spec (events : List EditEvent) (ineffective : Finset Nat) :
    (∀ e, findLastEffective events ineffective = some e ↔
      ∃ pre post, events = pre ++ e :: post ∧
        e.seq ∉ ineffective ∧ isUndoEvent e = false ∧
        ∀ x ∈ post, ¬(x.seq ∉ ineffective ∧ isUndoEvent x = false)) ∧
    (findLastEffective events ineffective = none ↔
      ∀ e ∈ events, ¬(e.seq ∉ ineffective ∧ isUndoEvent e = false)) := by
  constructor
  · intro e
    unfold findLastEffective
    rw [find?_eq_some_decomp]
    constructor
    · rintro ⟨l1, l2, heq, hpa, hforb⟩
      have heq' : events = l2.reverse ++ e :: l1.reverse := by
        have h := congrArg List.reverse heq
        rw [List.reverse_reverse] at h
        rw [h]
        simp
      obtain ⟨hseq, hundo⟩ := (effPred_iff ineffective e).mp hpa
      refine ⟨l2.reverse, l1.reverse, heq', hseq, hundo, ?_⟩
      intro x hx hc
      exact hforb x (List.mem_reverse.mp hx) ((effPred_iff ineffective x).mpr hc)
    · rintro ⟨pre, post, heq, hseq, hundo, hpost⟩
      refine ⟨post.reverse, pre.reverse, ?_,
        (effPred_iff ineffective e).mpr ⟨hseq, hundo⟩, ?_⟩
      · rw [heq]
        simp
      · intro x hx hc
        exact hpost x (List.mem_reverse.mp hx) ((effPred_iff ineffective x).mp hc)
  · unfold findLastEffective
    rw [List.find?_eq_none]
    constructor
    · intro h e he hc
      exact h e (List.mem_reverse.mpr he) ((effPred_iff ineffective e).mpr hc)
    · intro h x hx hc
      exact h x (List.mem_reverse.mp hx) ((effPred_iff ineffective x).mp hc)

/-- Witness for C4 at a concrete two-event log: the trailing undo event is
skipped and the plain event below it is returned. -/
theorem findLastEffective_spec_witness :
    findLastEffective [sampleBadEvent, sampleUndoEvent] ∅ = some sampleBadEvent ↔
      ∃ pre post, [sampleBadEvent, sampleUndoEvent] = pre ++ sampleBadEvent :: post ∧
        sampleBadEvent.seq ∉ (∅ : Finset Nat) ∧ isUndoEvent sampleBadEvent = false ∧
        ∀ x ∈ post, ¬(x.seq ∉ (∅ : Finset Nat) ∧ isUndoEvent x = false) :=
  (findLastEffective_spec [sampleBadEvent, sampleUndoEvent] ∅).1 sampleBadEvent

/-! C6: `appendEvent` / `getEvents` round trip. -/

lemma getEvents_appendEvent_self (st : Store) (f : String) (p : EventPayload)
    (now : Nat) :
    getEvents (appendEvent st f p now).1 f =
      getEvents st f ++ [(appendEvent st f p now).2] := by
  simp [appendEvent, getEvents]

/-- C6: `appendEvent` is a total function (no failure path; it is modelled
as returning `Store × EditEvent`, never an error), and after it runs,
`getEvents` on the same path yields the previous log (empty when the log
did not exist, since absent logs read as `[]`) extended by exactly the
returned event; the returned event carries every payload field plus the
newly assigned seq (`globalSeq + 1`) and the timestamp of the call. -/
theorem appendEvent_spec (st : Store) (filePath : String) (p : EventPayload)
    (now : Nat) :
    getEvents (appendEvent st filePath p now).1 filePath =
      getEvents st filePath ++ [(appendEvent st filePath p now).2] ∧
    (appendEvent st filePath p now).2.seq = st.globalSeq + 1 ∧
    (appendEvent st filePath p now).2.timestamp = now ∧
    (appendEvent st filePath p now).2.filePath = p.filePath ∧
    (appendEvent st filePath p now).2.startLine = p.startLine ∧
    (appendEvent st filePath p now).2.endLine = p.endLine ∧
    (appendEvent st filePath p now).2.original = p.original ∧
    (appendEvent st filePath p now).2.modified = p.modified ∧
    (appendEvent st filePath p now).2.originalLineCount = p.originalLineCount ∧
    (appendEvent st filePath p now).2.modifiedLineCount = p.modifiedLineCount ∧
    (appendEvent st filePath p now).2.hashBefore = p.hashBefore ∧
    (appendEvent st filePath p now).2.hashAfter = p.hashAfter ∧
    (appendEvent st filePath p now).2.meta = p.meta :=
  ⟨getEvents_appendEvent_self st filePath p now, rfl, rfl, rfl, rfl, rfl, rfl,
    rfl, rfl, rfl, rfl, rfl, rfl⟩

/-! C8: appending to one file's log leaves every other log unchanged. -/

/-- C8: for distinct paths `p ≠ q`, `appendEvent(p, …)` does not change
`getEvents(q)` — logs are partitioned by file path. -/
theorem appendEvent_frame (st : Store) (p q : String) (event : EventPayload)
    (now : Nat) (hpq : p ≠ q) :
    getEvents (appendEvent st p event now).1 q = getEvents st q := by
  show (if q = p then _ else st.logs q) = st.logs q
  rw [if_neg (Ne.symm hpq)]

/-- Witness for C8 at two concrete distinct paths. -/
theorem appendEvent_frame_witness :
    getEvents (appendEvent initialStore "a.md" samplePayload 0).1 "b.md" =
      getEvents initialStore "b.md" :=
  appendEvent_frame initialStore "a.md" "b.md" samplePayload 0 (by decide)

/-! C5: `canUndo`/`canRedo` lifecycle. -/

/-- C5: from the empty store, `canUndo`/`canRedo` are false/false for a file
with no events; after one plain apply event they are true/false; after an
undo event targeting that apply's seq they are false/true. -/
theorem canUndo_canRedo_lifecycle (f : String) (p₁ p₂ : EventPayload) (t₁ t₂ : Nat)
    (h₁ : p₁.meta = none) (m : EditMeta) (hm : p₂.meta = some m)
    (hmu : m._undo = true)
    (hmt : m._undoTarget = some (appendEvent initialStore f p₁ t₁).2.seq)
    (hmr : m._redo = false) :
    (canUndo initialStore f = false ∧ canRedo initialStore f = false) ∧
    (canUndo (appendEvent initialStore f p₁ t₁).1 f = true ∧
      canRedo (appendEvent initialStore f p₁ t₁).1 f = false) ∧
    (canUndo (appendEvent (appendEvent initialStore f p₁ t₁).1 f p₂ t₂).1 f = false ∧
      canRedo (appendEvent (appendEvent initialStore f p₁ t₁).1 f p₂ t₂).1 f = true) := by
  have he₁meta : (appendEvent initialStore f p₁ t₁).2.meta = none := h₁
  have he₂meta : (appendEvent (appendEvent initialStore f p₁ t₁).1 f p₂ t₂).2.meta =
      some m := hm
  have hundo₁ : isUndoEvent (appendEvent initialStore f p₁ t₁).2 = false := by
    simp [isUndoEvent, he₁meta]
  have hundo₂ : isUndoEvent
      (appendEvent (appendEvent initialStore f p₁ t₁).1 f p₂ t₂).2 = true := by
    simp [isUndoEvent, he₂meta, hmu]
  have hseq₁ : (appendEvent initialStore f p₁ t₁).2.seq = 1 := rfl
  have hseq₂ : (appendEvent (appendEvent initialStore f p₁ t₁).1 f p₂ t₂).2.seq = 2 := rfl
  have hev₁ : getEvents (appendEvent initialStore f p₁ t₁).1 f =
      [(appendEvent initialStore f p₁ t₁).2] := by
    rw [getEvents_appendEvent_self]
    rfl
  have hev₂ : getEvents (appendEvent (appendEvent initialStore f p₁ t₁).1 f p₂ t₂).1 f =
      [(appendEvent initialStore f p₁ t₁).2,
       (appendEvent (appendEvent initialStore f p₁ t₁).1 f p₂ t₂).2] := by
    rw [getEvents_appendEvent_self, hev₁]
    rfl
  have hrefs₂ : refsOf (appendEvent (appendEvent initialStore f p₁ t₁).1 f p₂ t₂).2 =
      ({1} : Finset Nat) := by
    have hmt' : m._undoTarget = some 1 := by rw [hmt, hseq₁]
    simp [refsOf, he₂meta, hmu, hmr, hmt']
  have hbuild₁ : buildIneffectiveSeqs [(appendEvent initialStore f p₁ t₁).2] = ∅ :=
    buildIneffectiveSeqs_plain _
      (by intro x hx; rw [List.mem_singleton.mp hx]; exact he₁meta)
  have hbuild₂ : buildIneffectiveSeqs [(appendEvent initialStore f p₁ t₁).2,
      (appendEvent (appendEvent initialStore f p₁ t₁).1 f p₂ t₂).2] =
      ({1} : Finset Nat) := by
    unfold buildIneffectiveSeqs
    rw [List.foldl_cons, List.foldl_cons, List.foldl_nil]
    rw [refsOf_eq_empty _ he₁meta, hrefs₂]
    simp
  have hfe₁ : findLastEffective [(appendEvent initialStore f p₁ t₁).2] ∅ =
      some (appendEvent initialStore f p₁ t₁).2 :=
    findLastEffective_append_last [] _ ∅ (by simp) hundo₁
  have hfu₁ : findLastUndone [(appendEvent initialStore f p₁ t₁).2] ∅ = none := by
    unfold findLastUndone
    rw [List.find?_eq_none]
    intro x hx
    rw [List.mem_reverse] at hx
    rw [List.mem_singleton.mp hx]
    simp [hundo₁]
  have hfe₂ : findLastEffective [(appendEvent initialStore f p₁ t₁).2,
      (appendEvent (appendEvent initialStore f p₁ t₁).1 f p₂ t₂).2]
      ({1} : Finset Nat) = none := by
    unfold findLastEffective
    rw [List.find?_eq_none]
    intro x hx
    rw [List.mem_reverse] at hx
    rcases List.mem_cons.mp hx with h | h
    · rw [h]
      simp [hseq₁]
    · rw [List.mem_singleton.mp h]
      simp [hundo₂]
  have hfu₂ : findLastUndone [(appendEvent initialStore f p₁ t₁).2,
      (appendEvent (appendEvent initialStore f p₁ t₁).1 f p₂ t₂).2]
      ({1} : Finset Nat) =
      some (appendEvent (appendEvent initialStore f p₁ t₁).1 f p₂ t₂).2 := by
    unfold findLastUndone
    have hrev : ([(appendEvent initialStore f p₁ t₁).2,
        (appendEvent (appendEvent initialStore f p₁ t₁).1 f p₂ t₂).2]).reverse =
        [(appendEvent (appendEvent initialStore f p₁ t₁).1 f p₂ t₂).2,
         (appendEvent initialStore f p₁ t₁).2] := rfl
    rw [hrev]
    apply List.find?_cons_of_pos
    simp [hseq₂, hundo₂]
  refine ⟨⟨rfl, rfl⟩, ⟨?_, ?_⟩, ⟨?_, ?_⟩⟩
  · show (findLastEffective (getEvents (appendEvent initialStore f p₁ t₁).1 f)
      (buildIneffectiveSeqs (getEvents (appendEvent initialStore f p₁ t₁).1 f))).isSome
      = true
    rw [hev₁, hbuild₁, hfe₁]
    rfl
  · show (findLastUndone (getEvents (appendEvent initialStore f p₁ t₁).1 f)
      (buildIneffectiveSeqs (getEvents (appendEvent initialStore f p₁ t₁).1 f))).isSome
      = false
    rw [hev₁, hbuild₁, hfu₁]
    rfl
  · show (findLastEffective
      (getEvents (appendEvent (appendEvent initialStore f p₁ t₁).1 f p₂ t₂).1 f)
      (buildIneffectiveSeqs
        (getEvents (appendEvent (appendEvent initialStore f p₁ t₁).1 f p₂ t₂).1 f))).isSome
      = false
    rw [hev₂, hbuild₂, hfe₂]
    rfl
  · show (findLastUndone
      (getEvents (appendEvent (appendEvent initialStore f p₁ t₁).1 f p₂ t₂).1 f)
      (buildIneffectiveSeqs
        (getEvents (appendEvent (appendEvent initialStore f p₁ t₁).1 f p₂ t₂).1 f))).isSome
      = true
    rw [hev₂, hbuild₂, hfu₂]
    rfl

/-- Witness for C5 with concrete payloads. -/
theorem canUndo_canRedo_lifecycle_witness :
    (canUndo initialStore "test.md" = false ∧ canRedo initialStore "test.md" = false) ∧
    (canUndo (appendEvent initialStore "test.md" samplePayload 1).1 "test.md" = true ∧
      canRedo (appendEvent initialStore "test.md" samplePayload 1).1 "test.md" = false) ∧
    (canUndo (appendEvent (appendEvent initialStore "test.md" samplePayload 1).1
        "test.md" sampleUndoPayload 2).1 "test.md" = false ∧
      canRedo (appendEvent (appendEvent initialStore "test.md" samplePayload 1).1
        "test.md" sampleUndoPayload 2).1 "test.md" = true) :=
  canUndo_canRedo_lifecycle "test.md" samplePayload sampleUndoPayload 1 2 rfl
    { _undo := true, _undoTarget := some 1 } rfl rfl rfl rfl

/-! C7: seq monotonicity and global uniqueness. -/

lemma reachable_inv (st : Store) (h : Reachable st) :
    (∀ f, (st.logs f).Pairwise (fun a b => a.seq < b.seq)) ∧
    (∀ f g, f ≠ g → ∀ e₁ ∈ st.logs f, ∀ e₂ ∈ st.logs g, e₁.seq ≠ e₂.seq) ∧
    (∀ f, ∀ e ∈ st.logs f, e.seq ≤ st.globalSeq) := by
  induction h with
  | init =>
    refine ⟨fun f => List.Pairwise.nil, fun f g hfg e₁ h₁ => absurd h₁ (by simp [initialStore]),
      fun f e he => absurd he (by simp [initialStore])⟩
  | append st f p now hst ih =>
    obtain ⟨hinc, hdisj, hbound⟩ := ih
    have hlogs : ∀ g, (appendEvent st f p now).1.logs g =
        if g = f then st.logs f ++ [(appendEvent st f p now).2] else st.logs g :=
      fun g => rfl
    have hseqfull : (appendEvent st f p now).2.seq = st.globalSeq + 1 := rfl
    have hgs : (appendEvent st f p now).1.globalSeq = st.globalSeq + 1 := rfl
    refine ⟨?_, ?_, ?_⟩
    · intro g
      rw [hlogs g]
      by_cases hg : g = f
      · rw [if_pos hg]
        apply List.pairwise_append.mpr
        refine ⟨hinc f, List.pairwise_singleton _ _, ?_⟩
        intro a ha b hb
        rw [List.mem_singleton.mp hb, hseqfull]
        have := hbound f a ha
        omega
      · rw [if_neg hg]
        exact hinc g
    · intro g g' hgg' e₁ h₁ e₂ h₂
      rw [hlogs g] at h₁
      rw [hlogs g'] at h₂
      by_cases hg : g = f <;> by_cases hg' : g' = f
      · exact absurd (hg.trans hg'.symm) hgg'
      · rw [if_pos hg] at h₁
        rw [if_neg hg'] at h₂
        rcases List.mem_append.mp h₁ with hold | hnew
        · exact hdisj f g' (fun hc => hgg' (hg.trans (hc.trans rfl))) e₁ hold e₂ h₂
        · rw [List.mem_singleton.mp hnew, hseqfull]
          have := hbound g' e₂ h₂
          omega
      · rw [if_neg hg] at h₁
        rw [if_pos hg'] at h₂
        rcases List.mem_append.mp h₂ with hold | hnew
        · exact hdisj g f (fun hc => hgg' (hc.trans hg'.symm)) e₁ h₁ e₂ hold
        · rw [List.mem_singleton.mp hnew, hseqfull]
          have := hbound g e₁ h₁
          omega
      · rw [if_neg hg] at h₁
        rw [if_neg hg'] at h₂
        exact hdisj g g' hgg' e₁ h₁ e₂ h₂
    · intro g e he
      rw [hlogs g] at he
      rw [hgs]
      by_cases hg : g = f
      · rw [if_pos hg] at he
        rcases List.mem_append.mp he with hold | hnew
        · have := hbound f e hold
          omega
        · rw [List.mem_singleton.mp hnew, hseqfull]
      · rw [if_neg hg] at he
        have := hbound g e he
        omega

/-- C7: in every store state reachable by `appendEvent` calls from the
initial (or reset) state, seqs within each file's log are strictly
increasing in append order (pairwise, every earlier event's seq is smaller),
and no seq occurs in the logs of two distinct files. -/
theorem reachable_seq_invariant (st : Store) (h : Reachable st) :
    (∀ f, (st.logs f).Pairwise (fun a b => a.seq < b.seq)) ∧
    (∀ f g, f ≠ g → ∀ e₁ ∈ st.logs f, ∀ e₂ ∈ st.logs g, e₁.seq ≠ e₂.seq) :=
  ⟨(reachable_inv st h).1, (reachable_inv st h).2.1⟩

/-- Witness for C7 at a concrete reachable state with appends to two
files. -/
theorem reachable_seq_invariant_witness :
    (∀ f, (((appendEvent (appendEvent initialStore "a.md" samplePayload 1).1
        "b.md" samplePayload 2).1).logs f).Pairwise (fun a b => a.seq < b.seq)) ∧
    (∀ f g, f ≠ g →
      ∀ e₁ ∈ ((appendEvent (appendEvent initialStore "a.md" samplePayload 1).1
        "b.md" samplePayload 2).1).logs f,
      ∀ e₂ ∈ ((appendEvent (appendEvent initialStore "a.md" samplePayload 1).1
        "b.md" samplePayload 2).1).logs g, e₁.seq ≠ e₂.seq) :=
  reachable_seq_invariant _
    (Reachable.append _ "b.md" samplePayload 2
      (Reachable.append _ "a.md" samplePayload 1 Reachable.init))

/-! C9: shape of `hashContent`. -/

lemma hexChar_mem (n : Nat) : hexChar n ∈ "0123456789abcdef".data := by
  unfold hexChar
  have h : n % 16 < 16 := Nat.mod_lt _ (by norm_num)
  set k := n % 16 with hk
  interval_cases k <;> decide

lemma wordHex_mem (w : Nat) : ∀ c ∈ wordHex w, c ∈ "0123456789abcdef".data := by
  intro c hc
  unfold wordHex at hc
  simp only [List.mem_cons, List.not_mem_nil, or_false] at hc
  rcases hc with h | h | h | h | h | h | h | h <;> exact h ▸ hexChar_mem _

lemma digestChars_mem (st : Hash8) :
    ∀ c ∈ digestChars st, c ∈ "0123456789abcdef".data := by
  intro c hc
  unfold digestChars at hc
  simp only [List.mem_append] at hc
  rcases hc with ((((((h | h) | h) | h) | h) | h) | h) | h <;> exact wordHex_mem _ c h

/-- C9: `hashContent` is deterministic (equal inputs yield equal digests —
immediate since the embedded SHA-256 is a function of the content alone),
and every digest is a 64-character lower-case hexadecimal string.  64 hex
characters encode 256 bits, which meets the 160+-bit cryptographic digest
requirement. -/
theorem hashContent_spec :
    (∀ s t : String, s = t → hashContent s = hashContent t) ∧
    (∀ s : String, (hashContent s).length = 64 ∧
      ∀ c ∈ (hashContent s).data, c ∈ "0123456789abcdef".data) := by
  refine ⟨fun s t h => h ▸ rfl, fun s => ⟨hashContent_length s, ?_⟩⟩
  intro c hc
  exact digestChars_mem (sha256 (toBytes s)) c hc

/-- Witness for C9 at a concrete input. -/
theorem hashContent_spec_witness :
    hashContent "hello" = hashContent "hello" ∧ (hashContent "hello").length = 64 :=
  ⟨hashContent_spec.1 "hello" "hello" rfl, (hashContent_spec.2 "hello").1⟩

end Redline


